import Mathlib

/-
  A shallow embedding of the `lru-weighted-cache` crate (src/lib.rs).

  The cache is modelled as an association list `entries : List (K × V)` held in
  recency order, most-recently-used first.  The source keeps two structures — a
  `HashMap` from key to a boxed node and an intrusive doubly linked list over
  the same nodes, bounded by two sentinel nodes — but every defined execution
  updates both in lockstep (`insert` attaches and indexes together, `remove`
  detaches and unindexes together), so a single list in recency order is a
  faithful joint representation: the key set of the list is the key set of the
  map, the head of the list is `head.next`, the last element is `tail.prev`.

  Value weights are an explicit function `w : V → Nat`, standing for the
  `Weighted` trait's `weight` method.

  Fallible behaviour is explicit:
  * `Except LruError` mirrors `Result<_, LruError>`;
  * operations that can hit a panic or undefined behaviour in the source
    return `Option`, with `none` marking the undefined executions.  These are:
    the `usize` underflow of `eject`'s projected weight (`current_weight -=
    v.weight()`), the dereference of the uninitialised tail sentinel when the
    ejection loop runs on an empty list, the `.unwrap()` inside `eject`, and
    `insert`'s dereference of the node pointer captured before `eject` when
    `eject` has freed that very node (a use-after-free).
-/

namespace LruWeighted

inductive LruError where
  | exceedsMaximumWeight
  | nonsenseParameters
  deriving DecidableEq

structure Cache (K V : Type) where
  entries : List (K × V)
  max_item_weight : Nat
  max_total_weight : Nat
  current_weight : Nat
  deriving DecidableEq

variable {K V : Type} [DecidableEq K]

/-- Sum of the weights of the values in a list of entries. -/
def totalWeight (w : V → Nat) (es : List (K × V)) : Nat :=
  (es.map fun p => w p.2).sum

/-- Lookup in the hash index: the first (and, with distinct keys, only) entry
whose key equals `k`.  Models `self.cache.get(&LruCacheKey { key })`. -/
def findEntryIn (k : K) : List (K × V) → Option (K × V)
  | [] => none
  | p :: es => if p.1 = k then some p else findEntryIn k es

def findEntry (c : Cache K V) (k : K) : Option (K × V) :=
  findEntryIn k c.entries

def lookup (c : Cache K V) (k : K) : Option V :=
  (findEntry c k).map Prod.snd

/-- `detach` unlinks one node from the recency list (and, used by `remove`,
the same entry leaves the hash index): the first entry with key `k` is
dropped, every other entry keeps its position. -/
def detach (k : K) : List (K × V) → List (K × V)
  | [] => []
  | p :: es => if p.1 = k then es else p :: detach k es

/-- `attach` links a node right after the head sentinel: it becomes the
most-recently-used entry. -/
def attach (p : K × V) (es : List (K × V)) : List (K × V) :=
  p :: es

/-- `promote` = `detach` then `attach` (with the node's current value). -/
def promote (k : K) (v : V) (es : List (K × V)) : List (K × V) :=
  attach (k, v) (detach k es)

/-- `LruWeightedCache::new`.  The source computes `max_item_weight *
max_count` in `usize`; on a 64-bit target the release-build product wraps
modulo `2 ^ 64` (debug builds panic on overflow), modelled by the explicit
reduction. -/
def new (max_count max_item_weight : Nat) : Except LruError (Cache K V) :=
  if max_count = 0 ∨ max_item_weight = 0 then
    Except.error LruError.nonsenseParameters
  else
    Except.ok
      { entries := []
        max_item_weight := max_item_weight
        max_total_weight := max_item_weight * max_count % 2 ^ 64
        current_weight := 0 }

/-- `LruWeightedCache::will_accept`. -/
def will_accept (w : V → Nat) (c : Cache K V) (v : V) : Bool :=
  decide (w v ≤ c.max_item_weight)

/-- `LruWeightedCache::get`: a pure read, the cache is returned unchanged. -/
def get (c : Cache K V) (k : K) : Option V × Cache K V :=
  (lookup c k, c)

/-- `LruWeightedCache::contains_key`. -/
def contains_key (c : Cache K V) (k : K) : Bool :=
  (findEntry c k).isSome

/-- `LruWeightedCache::len`. -/
def len (c : Cache K V) : Nat :=
  c.entries.length

/-- `LruWeightedCache::is_empty`. -/
def is_empty (c : Cache K V) : Bool :=
  decide (len c = 0)

/-- `LruWeightedCache::weight`. -/
def weight (c : Cache K V) : Nat :=
  c.current_weight

/-- `LruWeightedCache::remove`: if the key is in the index, the entry is
removed from the index, detached from the list, and `current_weight` is
decremented by the value's weight (a `usize` subtraction; under the weight
invariant it never underflows). -/
def remove (w : V → Nat) (c : Cache K V) (k : K) : Option V × Cache K V :=
  match findEntry c k with
  | none => (none, c)
  | some p =>
      (some p.2,
       { c with
          entries := detach k c.entries
          current_weight := c.current_weight - w p.2 })

/-- The `while` loop of `LruWeightedCache::eject`, with fuel (the loop frees
one node per iteration, so `entries.length` fuel is always enough).
`none` marks the executions that panic or are undefined in the source:
* the recency list is empty and `(*(*self.tail).prev).key` reads the
  uninitialised head sentinel;
* `self.remove(..).unwrap()` on an absent key;
* `current_weight -= v.weight()` underflows `usize` (this happens when the
  loop has evicted the candidate's own node, whose weight was already
  excluded from the projection). -/
def ejectLoop (w : V → Nat) (maxTotal vw : Nat) :
    Nat → Nat → Cache K V → Option (Cache K V)
  | 0, projected, c =>
      if projected + vw ≤ maxTotal then some c else none
  | fuel + 1, projected, c =>
      if projected + vw ≤ maxTotal then some c
      else
        match c.entries.getLast? with
        | none => none
        | some tl =>
            match remove w c tl.1 with
            | (none, _) => none
            | (some v0, c1) =>
                if w v0 ≤ projected then
                  ejectLoop w maxTotal vw fuel (projected - w v0) c1
                else none

/-- `LruWeightedCache::eject`: the projected weight starts from
`current_weight`, minus the existing entry's weight when the key being
inserted is already present. -/
def eject (w : V → Nat) (c : Cache K V) (v : V) (existing : Option V) :
    Option (Cache K V) :=
  let projected :=
    match existing with
    | some old => c.current_weight - w old
    | none => c.current_weight
  ejectLoop w c.max_total_weight (w v) c.entries.length projected c

/-- `LruWeightedCache::insert`.  The source captures `node_ptr` (the existing
node for the key, if any) before calling `eject`; when `eject` has freed that
node, the subsequent dereference is a use-after-free, modelled as `none`. -/
def insert (w : V → Nat) (c : Cache K V) (k : K) (v : V) :
    Option (Except LruError Unit × Cache K V) :=
  if will_accept w c v then
    match eject w c v (lookup c k) with
    | none => none
    | some c1 =>
        match lookup c k with
        | some _ =>
            match lookup c1 k with
            | none => none
            | some old =>
                some (Except.ok (),
                  { c1 with
                      current_weight := c1.current_weight - w old + w v
                      entries := promote k v c1.entries })
        | none =>
            some (Except.ok (),
              { c1 with
                  current_weight := c1.current_weight + w v
                  entries := attach (k, v) c1.entries })
  else
    some (Except.error LruError.exceedsMaximumWeight, c)

/-- One public operation of the cache. -/
inductive Op (K V : Type) where
  | insert (k : K) (v : V)
  | remove (k : K)
  | get (k : K)
  deriving DecidableEq

/-- One completed public call; `none` when the call panics or is undefined. -/
def step (w : V → Nat) (c : Cache K V) : Op K V → Option (Cache K V)
  | Op.insert k v => (insert w c k v).map Prod.snd
  | Op.remove k => some (remove w c k).2
  | Op.get k => some (get c k).2

/-- Run a sequence of public operations. -/
def runOps (w : V → Nat) (c : Cache K V) : List (Op K V) → Option (Cache K V)
  | [] => some c
  | o :: ops =>
      match step w c o with
      | none => none
      | some c1 => runOps w c1 ops

/-- The global invariants of the spec (plus `max_item_weight ≤
max_total_weight`, which holds for every successfully constructed cache since
`max_count ≥ 1`). -/
def WF (w : V → Nat) (c : Cache K V) : Prop :=
  c.current_weight = totalWeight w c.entries ∧
  c.current_weight ≤ c.max_total_weight ∧
  (∀ p ∈ c.entries, w p.2 ≤ c.max_item_weight) ∧
  (c.entries.map Prod.fst).Nodup ∧
  c.max_item_weight ≤ c.max_total_weight

instance (w : V → Nat) (c : Cache K V) : Decidable (WF w c) := by
  unfold WF; exact inferInstance

/-- The identity weight used for concrete test caches over `Nat` values. -/
def wid : Nat → Nat := fun n => n

theorem findEntryIn_eq_none {k : K} {l : List (K × V)} :
    findEntryIn k l = none ↔ ∀ p ∈ l, p.1 ≠ k := by
  induction l with
  | nil => simp [findEntryIn]
  | cons a l ih =>
    by_cases h : a.1 = k
    · simp [findEntryIn, h]
    · simp [findEntryIn, h, ih]

theorem findEntryIn_split {k : K} {l : List (K × V)} {p : K × V}
    (h : findEntryIn k l = some p) :
    p.1 = k ∧ ∃ l1 l2, l = l1 ++ p :: l2 ∧ (∀ q ∈ l1, q.1 ≠ k) ∧
      detach k l = l1 ++ l2 := by
  induction l with
  | nil => simp [findEntryIn] at h
  | cons a l ih =>
    by_cases ha : a.1 = k
    · simp only [findEntryIn, if_pos ha, Option.some.injEq] at h
      subst h
      exact ⟨ha, [], l, rfl, by simp, by simp [detach, ha]⟩
    · simp only [findEntryIn, if_neg ha] at h
      obtain ⟨hk, l1, l2, hl, hl1, hd⟩ := ih h
      refine ⟨hk, a :: l1, l2, by simp [hl], ?_, by simp [detach, ha, hd]⟩
      intro q hq
      rcases List.mem_cons.mp hq with hq | hq
      · exact hq ▸ ha
      · exact hl1 q hq

theorem totalWeight_split (w : V → Nat) (l1 l2 : List (K × V)) (p : K × V) :
    totalWeight w (l1 ++ p :: l2) =
      totalWeight w l1 + w p.2 + totalWeight w l2 := by
  simp [totalWeight]
  omega

/-- C1: the claim says that after each completed public call `weight()` equals
the sum of the held values' weights.  The code violates this: from the
reachable, invariant-satisfying cache `new(2,3)` holding keys 1, 2, 3 of
weights 2, 3, 1, re-inserting the least-recently-used key 1 with the
admissible weight 3 makes `eject` evict and free key 1's own node, after which
`insert` dereferences and re-attaches the freed node (use-after-free, so the
weight accounting is lost); the model maps this undefined call to `none`. -/
theorem weightInvariantBrokenBySelfEviction :
    (new 2 3 : Except LruError (Cache Nat Nat)) =
      Except.ok ⟨[], 3, 6, 0⟩ ∧
    runOps wid ⟨[], 3, 6, 0⟩ [Op.insert 1 2, Op.insert 2 3, Op.insert 3 1] =
      some ⟨[(3, 1), (2, 3), (1, 2)], 3, 6, 6⟩ ∧
    WF wid ⟨[(3, 1), (2, 3), (1, 2)], 3, 6, 6⟩ ∧
    wid 3 ≤ (3 : Nat) ∧
    step wid ⟨[(3, 1), (2, 3), (1, 2)], 3, 6, 6⟩ (Op.insert 1 3) = none := by
  refine ⟨rfl, rfl, by decide, by decide, rfl⟩

/-- C2: the claim says the ejection loop decrements the projected weight by
each evicted entry's weight until the candidate fits.  From the reachable
cache `new(1,3)` holding key 10 (weight 2, least recent) and key 11 (weight
1), re-inserting key 10 with weight 3 starts the loop at projected weight
3 − 2 = 1 and first evicts the tail — key 10's own entry, of weight 2, whose
weight the projection had already excluded — so the decrement 1 − 2
underflows `usize` (panic in debug builds; in release the projection wraps,
the loop empties the cache and then dereferences the uninitialised tail
sentinel).  The model maps this to `none`. -/
theorem ejectProjectionUnderflows :
    (new 1 3 : Except LruError (Cache Nat Nat)) =
      Except.ok ⟨[], 3, 3, 0⟩ ∧
    runOps wid ⟨[], 3, 3, 0⟩ [Op.insert 10 2, Op.insert 11 1] =
      some ⟨[(11, 1), (10, 2)], 3, 3, 3⟩ ∧
    WF wid ⟨[(11, 1), (10, 2)], 3, 3, 3⟩ ∧
    lookup (⟨[(11, 1), (10, 2)], 3, 3, 3⟩ : Cache Nat Nat) 10 = some 2 ∧
    (⟨[(11, 1), (10, 2)], 3, 3, 3⟩ : Cache Nat Nat).entries.getLast? =
      some (10, 2) ∧
    eject wid ⟨[(11, 1), (10, 2)], 3, 3, 3⟩ 3 (some 2) = none := by
  refine ⟨rfl, rfl, by decide, rfl, rfl, rfl⟩

/-- C3: the claim says the ejection loop always terminates, at worst after
removing every live entry.  From the reachable cache `new(1,5)` holding key
20 (weight 3, least recent) and key 21 (weight 2), inserting key 20 with the
admissible weight 5 makes the loop evict key 20's own entry and the projected
weight decrement 2 − 3 underflows `usize`: the loop panics in debug builds,
and in release the wrapped projection keeps the loop running after the cache
is empty, where it dereferences the uninitialised tail sentinel.  The model
maps the call to `none`. -/
theorem ejectLoopDoesNotTerminateCleanly :
    (new 1 5 : Except LruError (Cache Nat Nat)) =
      Except.ok ⟨[], 5, 5, 0⟩ ∧
    runOps wid ⟨[], 5, 5, 0⟩ [Op.insert 20 3, Op.insert 21 2] =
      some ⟨[(21, 2), (20, 3)], 5, 5, 5⟩ ∧
    WF wid ⟨[(21, 2), (20, 3)], 5, 5, 5⟩ ∧
    wid 5 ≤ (5 : Nat) ∧
    runOps wid ⟨[(21, 2), (20, 3)], 5, 5, 5⟩ [Op.insert 20 5] = none := by
  refine ⟨rfl, rfl, by decide, by decide, rfl⟩

/-- C4: the claim says the hash index and the recency list always hold the
same key set.  From the reachable cache `new(2,2)` holding keys 4, 5, 6 of
weights 1, 2, 1, re-inserting the least-recently-used key 4 with weight 2
makes `eject` remove key 4 from both structures and free its node; `insert`
then re-attaches the freed node to the recency list while the hash index no
longer contains key 4, so the two key sets diverge (and the list holds a
dangling node).  The model maps this undefined call to `none`. -/
theorem indexListBijectionBroken :
    (new 2 2 : Except LruError (Cache Nat Nat)) =
      Except.ok ⟨[], 2, 4, 0⟩ ∧
    runOps wid ⟨[], 2, 4, 0⟩ [Op.insert 4 1, Op.insert 5 2, Op.insert 6 1] =
      some ⟨[(6, 1), (5, 2), (4, 1)], 2, 4, 4⟩ ∧
    WF wid ⟨[(6, 1), (5, 2), (4, 1)], 2, 4, 4⟩ ∧
    step wid ⟨[(6, 1), (5, 2), (4, 1)], 2, 4, 4⟩ (Op.insert 4 2) = none := by
  refine ⟨rfl, rfl, by decide, rfl⟩

/-- C5: the claim says re-inserting an existing key replaces its value and
leaves `len()` unchanged.  From the reachable cache `new(2,3)` holding keys
7, 8, 9 of weights 2, 3, 1, re-inserting the least-recently-used key 7 with
the admissible weight 3 makes `eject` evict key 7's entry from the index and
free it; `len()` drops from 3 to 2 and `insert` then uses the freed node
instead of replacing a live entry.  The model maps this undefined call to
`none`. -/
theorem replacementInsertDestroysEntry :
    (new 2 3 : Except LruError (Cache Nat Nat)) =
      Except.ok ⟨[], 3, 6, 0⟩ ∧
    runOps wid ⟨[], 3, 6, 0⟩ [Op.insert 7 2, Op.insert 8 3, Op.insert 9 1] =
      some ⟨[(9, 1), (8, 3), (7, 2)], 3, 6, 6⟩ ∧
    WF wid ⟨[(9, 1), (8, 3), (7, 2)], 3, 6, 6⟩ ∧
    contains_key (⟨[(9, 1), (8, 3), (7, 2)], 3, 6, 6⟩ : Cache Nat Nat) 7 =
      true ∧
    wid 3 ≤ (3 : Nat) ∧
    step wid ⟨[(9, 1), (8, 3), (7, 2)], 3, 6, 6⟩ (Op.insert 7 3) = none := by
  refine ⟨rfl, rfl, by decide, rfl, by decide, rfl⟩

/-- C6: inserting a value whose weight exceeds `max_item_weight` fails with
`ExceedsMaximumWeight` and returns the cache completely unchanged (same
entries, hence same `len()`, `weight()`, key set and recency order). -/
theorem insertOverweightRejected (w : V → Nat) (c : Cache K V) (k : K) (v : V)
    (h : c.max_item_weight < w v) :
    insert w c k v = some (Except.error LruError.exceedsMaximumWeight, c) := by
  have hacc : will_accept w c v = false := by
    simp only [will_accept, decide_eq_false_iff_not]
    omega
  simp [insert, hacc]

theorem insertOverweightRejectedWitness :
    (⟨[], 1, 1, 0⟩ : Cache Nat Nat).max_item_weight < wid 2 ∧
    insert wid ⟨[], 1, 1, 0⟩ 5 2 =
      some (Except.error LruError.exceedsMaximumWeight, ⟨[], 1, 1, 0⟩) :=
  ⟨by decide, insertOverweightRejected wid ⟨[], 1, 1, 0⟩ 5 2 (by decide)⟩

/-- C7: `get` returns the stored value when the key is present and `none`
otherwise, mutates nothing, and any sequence of subsequent operations behaves
exactly as if `get` had never been called. -/
theorem getIsPureRead (w : V → Nat) (c : Cache K V) (k : K)
    (ops : List (Op K V)) :
    (get c k).2 = c ∧
    (∀ v, (get c k).1 = some v → (k, v) ∈ c.entries) ∧
    ((get c k).1 = none ↔ ∀ v, (k, v) ∉ c.entries) ∧
    runOps w c (Op.get k :: ops) = runOps w c ops := by
  refine ⟨rfl, ?_, ?_, by simp [runOps, step, get]⟩
  · intro v hv
    simp only [get, lookup, findEntry, Option.map_eq_some'] at hv
    obtain ⟨p, hp, hpv⟩ := hv
    obtain ⟨hk, l1, l2, hl, -, -⟩ := findEntryIn_split hp
    have : p = (k, v) := by
      cases p
      simp_all
    rw [hl, this]
    simp
  · simp only [get, lookup, findEntry, Option.map_eq_none']
    rw [findEntryIn_eq_none]
    constructor
    · intro hall v hv
      exact hall (k, v) hv rfl
    · intro hall p hp hpk
      exact hall p.2 (by
        have : p = (k, p.2) := by
          cases p
          simp_all
        rw [← this]
        exact hp)

theorem getIsPureReadWitness :
    (get (⟨[(1, 2)], 3, 6, 2⟩ : Cache Nat Nat) 1).2 = ⟨[(1, 2)], 3, 6, 2⟩ ∧
    runOps wid ⟨[(1, 2)], 3, 6, 2⟩ [Op.get 1, Op.insert 2 3] =
      runOps wid ⟨[(1, 2)], 3, 6, 2⟩ [Op.insert 2 3] := by
  have h := getIsPureRead wid (⟨[(1, 2)], 3, 6, 2⟩ : Cache Nat Nat) 1
    [Op.insert 2 3]
  exact ⟨h.1, h.2.2.2⟩

/-- C8: `remove` of an absent key returns `none` and changes nothing; `remove`
of a present key returns the owned value, detaches exactly that entry leaving
the relative order of all other entries unchanged, keeps the configured
limits, and (under the weight invariant) decrements `current_weight` by
exactly the removed value's weight. -/
theorem removeDetachesExactlyOne (w : V → Nat) (c : Cache K V) (k : K) :
    (lookup c k = none → remove w c k = (none, c)) ∧
    (∀ v, lookup c k = some v →
      (remove w c k).1 = some v ∧
      (remove w c k).2.max_item_weight = c.max_item_weight ∧
      (remove w c k).2.max_total_weight = c.max_total_weight ∧
      (∃ l1 l2, c.entries = l1 ++ (k, v) :: l2 ∧ (∀ q ∈ l1, q.1 ≠ k) ∧
        (remove w c k).2.entries = l1 ++ l2) ∧
      (c.current_weight = totalWeight w c.entries →
        (remove w c k).2.current_weight + w v = c.current_weight)) := by
  constructor
  · intro h
    have hf : findEntry c k = none := by
      simpa [lookup] using h
    simp [remove, hf]
  · intro v hv
    simp only [lookup, Option.map_eq_some'] at hv
    obtain ⟨p, hp, hpv⟩ := hv
    obtain ⟨hk, l1, l2, hl, hl1, hd⟩ := findEntryIn_split (k := k) hp
    have hpkv : p = (k, v) := by
      cases p
      simp_all
    subst hpkv
    have hp' : findEntryIn k c.entries = some (k, v) := hp
    refine ⟨by simp [remove, findEntry, hp'], by simp [remove, findEntry, hp'],
      by simp [remove, findEntry, hp'], ⟨l1, l2, hl, hl1, ?_⟩, ?_⟩
    · simp only [remove, findEntry, hp']
      exact hd
    · intro hsum
      have hw : totalWeight w c.entries =
          totalWeight w l1 + w v + totalWeight w l2 := by
        rw [hl]
        exact totalWeight_split w l1 l2 (k, v)
      simp only [remove, findEntry, hp']
      omega

theorem removeDetachesExactlyOneWitness :
    (remove wid ⟨[(1, 2), (3, 4)], 9, 9, 6⟩ 3).1 = some 4 ∧
    (remove wid (⟨[(1, 2), (3, 4)], 9, 9, 6⟩ : Cache Nat Nat) 3).2.current_weight
        + wid 4 =
      (⟨[(1, 2), (3, 4)], 9, 9, 6⟩ : Cache Nat Nat).current_weight := by
  have h := (removeDetachesExactlyOne wid
    (⟨[(1, 2), (3, 4)], 9, 9, 6⟩ : Cache Nat Nat) 3).2 4 (by decide)
  exact ⟨h.1, h.2.2.2.2 (by decide)⟩

/-- C9 counterexample: the claim says every successful construction stores a
weight budget equal to `max_item_weight * max_count`, but the source computes
that product in `usize`: on a 64-bit target, `new(2^32, 2^32)` succeeds in a
release build with the wrapped budget 0 (a debug build panics on the
overflow), while the true product `2^32 * 2^32 = 2^64` is not 0. -/
theorem newBudgetWrapsAtOverflow :
    (new (2 ^ 32) (2 ^ 32) : Except LruError (Cache Nat Nat)) =
      Except.ok ⟨[], 2 ^ 32, 0, 0⟩ ∧
    (2 : Nat) ^ 32 * 2 ^ 32 ≠ 0 :=
  ⟨rfl, by decide⟩

/-- C9 (amended): `new` fails with `NonsenseParameters` exactly when
`max_count` or `max_item_weight` is zero; otherwise, whenever the product
`max_item_weight * max_count` fits in 64 bits, it yields an empty cache whose
weight budget is exactly `max_item_weight * max_count` (on 64-bit overflow
the release build stores the product modulo `2 ^ 64` and the debug build
panics). -/
theorem newCorrect (mc mi : Nat) (hfit : mi * mc < 2 ^ 64) :
    ((new mc mi : Except LruError (Cache K V)) =
        Except.error LruError.nonsenseParameters ↔ mc = 0 ∨ mi = 0) ∧
    (¬(mc = 0 ∨ mi = 0) →
      (new mc mi : Except LruError (Cache K V)) =
          Except.ok ⟨[], mi, mi * mc, 0⟩ ∧
      len (⟨[], mi, mi * mc, 0⟩ : Cache K V) = 0 ∧
      weight (⟨[], mi, mi * mc, 0⟩ : Cache K V) = 0 ∧
      is_empty (⟨[], mi, mi * mc, 0⟩ : Cache K V) = true) := by
  by_cases h : mc = 0 ∨ mi = 0
  · simp [new, h]
  · have hfit' : mi * mc < 18446744073709551616 := hfit
    simp [new, h, Nat.mod_eq_of_lt hfit', len, weight, is_empty]

theorem newCorrectWitness :
    (3 : Nat) * 2 < 2 ^ 64 ∧
    ((new 0 3 : Except LruError (Cache Nat Nat)) =
        Except.error LruError.nonsenseParameters ↔
      (0 : Nat) = 0 ∨ (3 : Nat) = 0) ∧
    (new 2 3 : Except LruError (Cache Nat Nat)) =
      Except.ok ⟨[], 3, 3 * 2, 0⟩ := by
  have h1 := (newCorrect (K := Nat) (V := Nat) 0 3 (by decide)).1
  have h2 := (newCorrect (K := Nat) (V := Nat) 2 3 (by decide)).2 (by decide)
  exact ⟨by decide, h1, h2.1⟩

/-- C10: whenever `insert` completes with `Ok` on a well-formed cache and an
admissible value, the inserted key is immediately retrievable: `get` returns
the just-inserted value and `contains_key` is true. -/
theorem insertedKeyIsRetrievable (w : V → Nat) (c c' : Cache K V) (k : K)
    (v : V) (hwf : WF w c) (hadm : w v ≤ c.max_item_weight)
    (h : insert w c k v = some (Except.ok (), c')) :
    (get c' k).1 = some v ∧ contains_key c' k = true := by
  unfold insert at h
  by_cases hacc : will_accept w c v
  · rw [if_pos hacc] at h
    cases heject : eject w c v (lookup c k) with
    | none => rw [heject] at h; exact absurd h (by simp)
    | some c1 =>
      rw [heject] at h
      dsimp only at h
      cases hex : lookup c k with
      | some old0 =>
        rw [hex] at h
        dsimp only at h
        cases hlu : lookup c1 k with
        | none => rw [hlu] at h; exact absurd h (by simp)
        | some old =>
          rw [hlu] at h
          dsimp only at h
          simp only [Option.some.injEq, Prod.mk.injEq, true_and] at h
          rw [← h]
          constructor
          · simp [get, lookup, findEntry, promote, attach, findEntryIn]
          · simp [contains_key, findEntry, promote, attach, findEntryIn]
      | none =>
        rw [hex] at h
        simp only [Option.some.injEq, Prod.mk.injEq, true_and] at h
        rw [← h]
        constructor
        · simp [get, lookup, findEntry, attach, findEntryIn]
        · simp [contains_key, findEntry, attach, findEntryIn]
  · rw [if_neg hacc] at h
    exact absurd h (by simp)

theorem insertedKeyIsRetrievableWitness :
    WF wid (⟨[], 3, 6, 0⟩ : Cache Nat Nat) ∧ wid 2 ≤ (3 : Nat) ∧
    insert wid ⟨[], 3, 6, 0⟩ 1 2 = some (Except.ok (), ⟨[(1, 2)], 3, 6, 2⟩) ∧
    (get (⟨[(1, 2)], 3, 6, 2⟩ : Cache Nat Nat) 1).1 = some 2 ∧
    contains_key (⟨[(1, 2)], 3, 6, 2⟩ : Cache Nat Nat) 1 = true := by
  have h := insertedKeyIsRetrievable wid ⟨[], 3, 6, 0⟩ ⟨[(1, 2)], 3, 6, 2⟩ 1 2
    (by decide) (by decide) rfl
  exact ⟨by decide, by decide, rfl, h.1, h.2⟩

end LruWeighted
